import Mathlib

/-!
# Quantized fully-connected kernel (`fully_connected/main.c`)

Shallow embedding of the dot-product routines, the per-core partition and the
per-core kernel of `main.c`, followed by the properties of the specification.

Conventions of the embedding.

* A buffer reached through a C pointer is a total function `Nat → Int` from the
  element index to the content of the cell; `p + off` is the function
  `fun k => p (off + k)`.  A cell is given its C type when it is loaded: `u8`
  reads it as `uint8_t` (a value in `0..255`), `i8` as `int8_t` (a value in
  `-128..127`); both are the identity on the values of their type.
* `int32_t` arithmetic is integer arithmetic followed by `wrap32`, the
  two's-complement reduction modulo `2^32`.
* The `int` quantities `channels_in`, `channels_out`, `core_id`, `size`,
  `begin`, `end` and the loop counters are natural numbers: the program only
  produces non-negative values for them, and on a power-of-two core count
  `size * core_id` and `begin + size` never exceed `channels_out`
  (`fc_arith_le_channels_out`), so none of them wraps.
* The three buffers of the kernel are the distinct arrays `IN_INT8_L1`,
  `WEIGHT_INT8_L1` and `OUT_L1` of the program, so they are three separate
  functions and a store to `output` is an update of that function alone.
* The build-time constants `NUM_CORES` and `USE_SIMD` are parameters.
-/

namespace PulpNN

/-! ## Machine integers -/

/-- Reduction of an integer to `int32_t`: wraparound modulo `2^32` into
`[-2^31, 2^31)`. -/
def wrap32 (x : Int) : Int := (x + 2147483648) % 4294967296 - 2147483648

/-- Content of a memory cell loaded as `uint8_t`. -/
def u8 (x : Int) : Int := x % 256

/-- Content of a memory cell loaded as `int8_t`. -/
def i8 (x : Int) : Int := (x + 128) % 256 - 128

/-! ## Dot-product engine (`main.c`, lines 36-58) -/

/-- Scalar dot product, `dotp_u8_i8_i32` (lines 36-41): `sum += a[i] * b[i]`
for `i = 0 .. length-1`, the operands promoted to `int` before the product. -/
def dotp_u8_i8_i32 (a b : Nat → Int) (length : Nat) : Int :=
  (List.range length).foldl (fun sum i => wrap32 (sum + u8 (a i) * i8 (b i))) 0

/-- Packed vector of four 8-bit lanes (`v4u`, `v4s`). -/
structure V4 where
  l0 : Int
  l1 : Int
  l2 : Int
  l3 : Int

/-- Element `i` of a byte buffer viewed through a `v4u *` / `v4s *` cast: the
four consecutive cells `4*i .. 4*i+3`. -/
def loadV4 (p : Nat → Int) (i : Nat) : V4 :=
  ⟨p (4 * i), p (4 * i + 1), p (4 * i + 2), p (4 * i + 3)⟩

/-- Modelled from the spec: the `SumDotp4` macro of `pulp_nn_utils.h`, which is
not part of the sources.  It is the fused multiply-accumulate-of-4: the
accumulator plus the four lane products of a packed-unsigned-8x4 and a
packed-signed-8x4 operand, as a 32-bit value. -/
def SumDotp4 (x y : V4) (acc : Int) : Int :=
  wrap32 (acc + (u8 x.l0 * i8 y.l0 + u8 x.l1 * i8 y.l1
    + u8 x.l2 * i8 y.l2 + u8 x.l3 * i8 y.l3))

/-- Vectorized dot product, `dotp_u8_i8_i32_simd` (lines 43-58): `length / 4`
groups through `SumDotp4`, then the remainder `[begin, end)` element by
element. -/
def dotp_u8_i8_i32_simd (a b : Nat → Int) (length : Nat) : Int :=
  let vA := loadV4 a
  let vB := loadV4 b
  let sum := (List.range (length / 4)).foldl (fun sum i => SumDotp4 (vA i) (vB i) sum) 0
  let begin := (length / 4) * 4
  let end_ := begin + (length % 4)
  (List.range' begin (end_ - begin)).foldl (fun sum i => wrap32 (sum + u8 (a i) * i8 (b i))) sum

/-! ## Partitioner (`main.c`, lines 60-84) -/

/-- Position of the highest set bit of `n`, by at most `fuel` halvings. -/
def log2Aux : Nat → Nat → Nat
  | 0, _ => 0
  | fuel + 1, n => if 2 ≤ n then log2Aux fuel (n / 2) + 1 else 0

/-- Modelled from the spec: the `log2` macro of the platform headers, which is
not part of the sources.  The spec fixes its value on powers of two only,
`log2 (2^k) = k`, and there this definition is exact (`log2_two_pow`).  Off
powers of two the spec leaves it undetermined; the position of the highest set
bit returned here is a choice of this model, and no property below depends on
it. -/
def log2 (n : Nat) : Nat := log2Aux n n

/-- The function `calculate_per_core_size` (lines 60-63).  In C the additive
operator binds tighter than the shift, so the returned expression is
`size >> (log2core + ((size & ((1 << log2core) - 1)) != 0))`. -/
def calculate_per_core_size (NUM_CORES size : Nat) : Nat :=
  let log2core := log2 NUM_CORES
  size >>> (log2core + (if size &&& ((1 <<< log2core) - 1) ≠ 0 then 1 else 0))

/-- Arguments of the kernel, `fc_args_t` (lines 28-34), with the three buffers
the pointers refer to. -/
structure fc_args_t where
  input : Nat → Int
  weights : Nat → Int
  output : Nat → Int
  channels_in : Nat
  channels_out : Nat

/-- Local `size` of `fully_connected` (line 72). -/
def fc_size (NUM_CORES channels_out : Nat) : Nat :=
  calculate_per_core_size NUM_CORES channels_out

/-- Local `begin` of `fully_connected` (line 73). -/
def fc_begin (NUM_CORES core_id channels_out : Nat) : Nat :=
  min (fc_size NUM_CORES channels_out * core_id) channels_out

/-- Local `end` of `fully_connected` (line 74). -/
def fc_end (NUM_CORES core_id channels_out : Nat) : Nat :=
  min (fc_begin NUM_CORES core_id channels_out + fc_size NUM_CORES channels_out) channels_out

/-- One iteration of the loop of `fully_connected` (lines 77-82): the weight
row at offset `i * channels_in`, its dot product with the input by the routine
`USE_SIMD` selects, stored in `output[i]`. -/
def fc_body (USE_SIMD : Nat) (s : fc_args_t) (i : Nat) : fc_args_t :=
  let weights_row := fun k => s.weights (i * s.channels_in + k)
  let result :=
    if USE_SIMD = 0 then dotp_u8_i8_i32 s.input weights_row s.channels_in
    else dotp_u8_i8_i32_simd s.input weights_row s.channels_in
  { s with output := Function.update s.output i result }

/-- The kernel `fully_connected` (lines 65-84) on the core `core_id`; the
result is the memory after the call. -/
def fully_connected (NUM_CORES USE_SIMD core_id : Nat) (fc_args : fc_args_t) : fc_args_t :=
  let begin := fc_begin NUM_CORES core_id fc_args.channels_out
  let end_ := fc_end NUM_CORES core_id fc_args.channels_out
  (List.range' begin (end_ - begin)).foldl (fc_body USE_SIMD) fc_args

/-- Modelled from the spec: the fork-join primitive `pi_cl_team_fork` of the
runtime, which is not part of the sources; the entry point runs once for every
core identity in `[0, NUM_CORES)`, here in increasing order. -/
def pi_cl_team_fork (NUM_CORES : Nat) (entry : Nat → fc_args_t → fc_args_t)
    (arg : fc_args_t) : fc_args_t :=
  (List.range NUM_CORES).foldl (fun s core_id => entry core_id s) arg

/-- Modelled from the spec: the golden output `OUT_L2` of `golden.h`, which is
not part of the sources; `output[j] = sum_i input[i] * weight[j][i]` as a
32-bit accumulator. -/
def golden (s : fc_args_t) (j : Nat) : Int :=
  wrap32 (∑ i in Finset.range s.channels_in,
    u8 (s.input i) * i8 (s.weights (j * s.channels_in + i)))

/-- Result check of `cluster_entry` (lines 129-134): the number of indices
below `CH_IM_OUT` at which the computed and the golden output differ. -/
def count_errors (CH_IM_OUT : Nat) (OUT_L1 OUT_L2 : Nat → Int) : Nat :=
  (List.range CH_IM_OUT).foldl
    (fun errors i => if OUT_L1 i ≠ OUT_L2 i then errors + 1 else errors) 0

/-! ## Concrete configurations -/

/-- The end-to-end scenario of the specification: `channels_in = 8`,
`channels_out = 4`, an input of eight ones and the four weight rows, over an
arbitrary initial output buffer. -/
def scenario (output : Nat → Int) : fc_args_t where
  input := fun k => ([1, 1, 1, 1, 1, 1, 1, 1] : List Int).getD k 0
  weights := fun k => ([1, 1, 1, 1, 1, 1, 1, 1, 2, 0, 0, 0, 0, 0, 0, 0,
    -1, -1, -1, -1, -1, -1, -1, -1, 0, 0, 0, 0, 0, 0, 0, 1] : List Int).getD k 0
  output := output
  channels_in := 8
  channels_out := 4

/-- A layer whose output count is not a multiple of the core count:
`channels_in = 1`, `channels_out = 5`, input `[1]`, five weight rows `[1]`,
over an arbitrary initial output buffer. -/
def uneven_args (output : Nat → Int) : fc_args_t where
  input := fun k => ([1] : List Int).getD k 0
  weights := fun k => ([1, 1, 1, 1, 1] : List Int).getD k 0
  output := output
  channels_in := 1
  channels_out := 5

/-- A layer with one input and `2 ^ log2(NUM_CORES)` outputs, whatever the
value of `log2(NUM_CORES)` is: `channels_in = 1`, the input cell and every
weight cell hold 1, over an arbitrary initial output buffer. -/
def log2_args (NUM_CORES : Nat) (output : Nat → Int) : fc_args_t where
  input := fun _ => 1
  weights := fun _ => 1
  output := output
  channels_in := 1
  channels_out := 2 ^ log2 NUM_CORES

/-! ## Cells read by the vectorized routine -/

/-- Indices of the cells that `loadV4 p i` reads. -/
def loadV4_indices (i : Nat) : List Nat := [4 * i, 4 * i + 1, 4 * i + 2, 4 * i + 3]

/-- Indices consumed by the group loop of `dotp_u8_i8_i32_simd` (lines 48-49),
in the order of the iterations. -/
def simd_group_reads (length : Nat) : List Nat :=
  (List.range (length / 4)).foldl (fun reads i => reads ++ loadV4_indices i) []

/-- Indices consumed by the remainder loop of `dotp_u8_i8_i32_simd`
(lines 52-55), in the order of the iterations. -/
def simd_tail_reads (length : Nat) : List Nat :=
  let begin := (length / 4) * 4
  let end_ := begin + (length % 4)
  (List.range' begin (end_ - begin)).foldl (fun reads i => reads ++ [i]) []

/-! ## Machine-integer lemmas -/

theorem wrap32_range (x : Int) : -2147483648 ≤ wrap32 x ∧ wrap32 x < 2147483648 := by
  unfold wrap32; omega

theorem wrap32_congr (x : Int) : (wrap32 x - x) % 4294967296 = 0 := by
  unfold wrap32; omega

theorem wrap32_of_range (x : Int) (h1 : -2147483648 ≤ x) (h2 : x < 2147483648) :
    wrap32 x = x := by
  unfold wrap32; omega

theorem wrap32_idem (x : Int) : wrap32 (wrap32 x) = wrap32 x := by
  unfold wrap32; omega

theorem wrap32_add_congr (x y z : Int) (h : wrap32 x = wrap32 y) :
    wrap32 (x + z) = wrap32 (y + z) := by
  unfold wrap32 at *; omega

theorem wrap32_wrap32_add (x z : Int) : wrap32 (wrap32 x + z) = wrap32 (x + z) :=
  wrap32_add_congr _ _ _ (wrap32_idem x)

theorem u8_range (x : Int) : 0 ≤ u8 x ∧ u8 x ≤ 255 := by
  unfold u8; omega

theorem u8_of_range (x : Int) (h1 : 0 ≤ x) (h2 : x ≤ 255) : u8 x = x := by
  unfold u8; omega

theorem i8_range (x : Int) : -128 ≤ i8 x ∧ i8 x ≤ 127 := by
  unfold i8; omega

theorem i8_of_range (x : Int) (h1 : -128 ≤ x) (h2 : x ≤ 127) : i8 x = x := by
  unfold i8; omega

/-! ## The accumulation loops -/

/-- The scalar accumulation step keeps a 32-bit accumulator 32-bit. -/
theorem foldl_acc_fixed (f : Nat → Int) (l : List Nat) (s : Int) (hs : wrap32 s = s) :
    wrap32 (l.foldl (fun sum i => wrap32 (sum + f i)) s)
      = l.foldl (fun sum i => wrap32 (sum + f i)) s := by
  induction l generalizing s with
  | nil => simpa using hs
  | cons x l ih => simpa using ih _ (wrap32_idem _)

/-- The scalar accumulation over `[b, b + n)` adds the terms modulo `2^32`. -/
theorem foldl_acc_sum (f : Nat → Int) (n b : Nat) (s : Int) :
    wrap32 ((List.range' b n).foldl (fun sum i => wrap32 (sum + f i)) s)
      = wrap32 (s + ∑ i in Finset.range n, f (b + i)) := by
  induction n generalizing b s with
  | zero => simp
  | succ n ih =>
    rw [List.range'_succ, List.foldl_cons, ih, Finset.sum_range_succ', wrap32_wrap32_add]
    congr 1
    have : ∀ i, f (b + 1 + i) = f (b + (i + 1)) := fun i => by congr 1; omega
    simp only [this, Nat.add_zero]
    ring

theorem dotp_u8_i8_i32_eq_sum (a b : Nat → Int) (L : Nat) :
    dotp_u8_i8_i32 a b L = wrap32 (∑ i in Finset.range L, u8 (a i) * i8 (b i)) := by
  have h := foldl_acc_sum (fun i => u8 (a i) * i8 (b i)) L 0 0
  have h2 := foldl_acc_fixed (fun i => u8 (a i) * i8 (b i)) (List.range' 0 L) 0 (by decide)
  rw [h2] at h
  simpa [dotp_u8_i8_i32, List.range_eq_range'] using h

/-- The group loop over `q` packed groups adds the first `4 * q` terms. -/
theorem foldl_simd_sum (a b : Nat → Int) (q : Nat) :
    wrap32 ((List.range q).foldl (fun sum i => SumDotp4 (loadV4 a i) (loadV4 b i) sum) 0)
      = wrap32 (∑ i in Finset.range (4 * q), u8 (a i) * i8 (b i)) := by
  induction q with
  | zero => simp
  | succ q ih =>
    rw [List.range_succ, List.foldl_append, List.foldl_cons, List.foldl_nil]
    have e : 4 * (q + 1) = 4 * q + 1 + 1 + 1 + 1 := by ring
    rw [e, Finset.sum_range_succ, Finset.sum_range_succ, Finset.sum_range_succ,
      Finset.sum_range_succ]
    generalize (List.range q).foldl (fun sum i => SumDotp4 (loadV4 a i) (loadV4 b i) sum) 0 = S
      at ih ⊢
    simp only [SumDotp4, loadV4, wrap32_idem]
    rw [wrap32_add_congr _ _ _ ih]
    congr 1
    ring

theorem dotp_u8_i8_i32_simd_eq_sum (a b : Nat → Int) (L : Nat) :
    dotp_u8_i8_i32_simd a b L = wrap32 (∑ i in Finset.range L, u8 (a i) * i8 (b i)) := by
  unfold dotp_u8_i8_i32_simd
  simp only [Nat.add_sub_cancel_left]
  generalize hS : (List.range (L / 4)).foldl
    (fun sum i => SumDotp4 (loadV4 a i) (loadV4 b i) sum) 0 = S
  have hfix : wrap32 S = S := by
    rw [← hS]
    cases L / 4 with
    | zero => simp [wrap32]
    | succ q =>
      rw [List.range_succ, List.foldl_append, List.foldl_cons, List.foldl_nil]
      exact wrap32_idem _
  have hsum := foldl_simd_sum a b (L / 4)
  rw [hS] at hsum
  rw [← foldl_acc_fixed (fun i => u8 (a i) * i8 (b i)) _ S hfix,
    foldl_acc_sum (fun i => u8 (a i) * i8 (b i)), wrap32_add_congr _ _ _ hsum]
  congr 1
  have hL : L = 4 * (L / 4) + L % 4 := by omega
  conv_rhs => rw [hL, Finset.sum_range_add]
  have e : L / 4 * 4 = 4 * (L / 4) := by ring
  rw [e]


/-! ## The partition -/

theorem log2Aux_eq (fuel n : Nat) (h : n ≤ fuel) : log2Aux fuel n = Nat.log2 n := by
  induction fuel generalizing n with
  | zero =>
    have h0 : n = 0 := by omega
    subst h0
    rw [Nat.log2]; simp [log2Aux]
  | succ f ih =>
    rw [Nat.log2, log2Aux]
    by_cases h2 : 2 ≤ n
    · have hf : n / 2 ≤ f := by omega
      simp [h2, ih _ hf]
    · simp [h2]

theorem log2_two_pow (k : Nat) : log2 (2 ^ k) = k := by
  unfold log2; rw [log2Aux_eq _ _ (le_refl _), Nat.log2_two_pow]

/-- On a power-of-two core count the returned size is one shift by
`k + remainder_bit`. -/
theorem calculate_per_core_size_two_pow (k size : Nat) :
    calculate_per_core_size (2 ^ k) size
      = size / 2 ^ (k + (if size % 2 ^ k ≠ 0 then 1 else 0)) := by
  unfold calculate_per_core_size
  simp only [log2_two_pow, Nat.one_shiftLeft, Nat.and_pow_two_sub_one_eq_mod,
    Nat.shiftRight_eq_div_pow]

/-- On a power-of-two core count, `NUM_CORES` chunks of the returned size fit
in `size`. -/
theorem calculate_per_core_size_mul_le (k size : Nat) :
    calculate_per_core_size (2 ^ k) size * 2 ^ k ≤ size := by
  rw [calculate_per_core_size_two_pow]
  by_cases h : size % 2 ^ k ≠ 0
  · rw [if_pos h]
    have h1 : size / 2 ^ (k + 1) * 2 ^ (k + 1) ≤ size := Nat.div_mul_le_self _ _
    have h2 : size / 2 ^ (k + 1) * 2 ^ k ≤ size / 2 ^ (k + 1) * 2 ^ (k + 1) :=
      Nat.mul_le_mul_left _ (Nat.pow_le_pow_right (by decide) (Nat.le_succ k))
    exact le_trans h2 h1
  · rw [if_neg h]
    exact Nat.div_mul_le_self _ _

/-- The products and sums computed for the range of a core stay within
`channels_out`. -/
theorem fc_arith_le_channels_out (k c co : Nat) (hc : c < 2 ^ k) :
    fc_size (2 ^ k) co * c ≤ co ∧ fc_begin (2 ^ k) c co + fc_size (2 ^ k) co ≤ co := by
  have h := calculate_per_core_size_mul_le k co
  have h1 : fc_size (2 ^ k) co * (c + 1) ≤ fc_size (2 ^ k) co * 2 ^ k :=
    Nat.mul_le_mul_left _ hc
  rw [Nat.mul_succ] at h1
  unfold fc_begin
  unfold fc_size at *
  omega

theorem fc_begin_le_end (N c co : Nat) : fc_begin N c co ≤ fc_end N c co := by
  unfold fc_end fc_begin; omega

theorem fc_end_le (N c co : Nat) : fc_end N c co ≤ co := by
  unfold fc_end; omega

/-- The range of a core ends before the range of any later core begins. -/
theorem fc_end_le_begin (N co c1 c2 : Nat) (h : c1 < c2) :
    fc_end N c1 co ≤ fc_begin N c2 co := by
  have hm : fc_size N co * (c1 + 1) ≤ fc_size N co * c2 := Nat.mul_le_mul_left _ h
  rw [Nat.mul_succ] at hm
  unfold fc_end fc_begin; omega

theorem fc_ranges_disjoint (N co c1 c2 j : Nat) (hne : c1 ≠ c2)
    (h1 : fc_begin N c1 co ≤ j ∧ j < fc_end N c1 co)
    (h2 : fc_begin N c2 co ≤ j ∧ j < fc_end N c2 co) : False := by
  rcases Nat.lt_or_gt_of_ne hne with h | h
  · have := fc_end_le_begin N co c1 c2 h; omega
  · have := fc_end_le_begin N co c2 c1 h; omega

/-! ## The kernel -/

theorem golden_congr (s t : fc_args_t) (hi : t.input = s.input) (hw : t.weights = s.weights)
    (hc : t.channels_in = s.channels_in) : golden t = golden s := by
  funext j; unfold golden; rw [hi, hw, hc]

/-- One iteration stores the 32-bit dot product of the input with row `i`,
whichever routine is selected. -/
theorem fc_body_eq (U : Nat) (s : fc_args_t) (i : Nat) :
    fc_body U s i = { s with output := Function.update s.output i (golden s i) } := by
  unfold fc_body golden
  by_cases hU : U = 0
  · simp only [hU, if_true, dotp_u8_i8_i32_eq_sum]
  · simp only [hU, if_false, dotp_u8_i8_i32_simd_eq_sum]

/-- The loop over `[b, b + n)` stores the golden value at every index of the
range and changes nothing else. -/
theorem fc_loop_spec (U n b : Nat) (s : fc_args_t) :
    ((List.range' b n).foldl (fc_body U) s).input = s.input
    ∧ ((List.range' b n).foldl (fc_body U) s).weights = s.weights
    ∧ ((List.range' b n).foldl (fc_body U) s).channels_in = s.channels_in
    ∧ ((List.range' b n).foldl (fc_body U) s).channels_out = s.channels_out
    ∧ ∀ j, ((List.range' b n).foldl (fc_body U) s).output j
        = if b ≤ j ∧ j < b + n then golden s j else s.output j := by
  induction n with
  | zero =>
    refine ⟨rfl, rfl, rfl, rfl, fun j => ?_⟩
    have e : ¬(b ≤ j ∧ j < b + 0) := by omega
    simp only [List.range'_zero, List.foldl_nil, e, if_false]
  | succ n ih =>
    obtain ⟨hi, hw, hci, hco, ho⟩ := ih
    rw [List.range'_concat, List.foldl_append, List.foldl_cons, List.foldl_nil, fc_body_eq,
      golden_congr s _ hi hw hci, Nat.one_mul]
    refine ⟨hi, hw, hci, hco, fun j => ?_⟩
    by_cases hj : j = b + n
    · have e : b ≤ j ∧ j < b + (n + 1) := by omega
      simp only [e, and_self, if_true]
      subst hj
      exact Function.update_same _ _ _
    · have e : (b ≤ j ∧ j < b + (n + 1)) ↔ (b ≤ j ∧ j < b + n) := by omega
      simp only [e]
      rw [← ho j]
      exact Function.update_noteq hj _ _

/-- Effect of one call of `fully_connected`: the golden value at every index
of the core's range, everything else unchanged. -/
theorem fully_connected_spec (N U c : Nat) (s : fc_args_t) :
    (fully_connected N U c s).input = s.input
    ∧ (fully_connected N U c s).weights = s.weights
    ∧ (fully_connected N U c s).channels_in = s.channels_in
    ∧ (fully_connected N U c s).channels_out = s.channels_out
    ∧ ∀ j, (fully_connected N U c s).output j
        = if fc_begin N c s.channels_out ≤ j ∧ j < fc_end N c s.channels_out
          then golden s j else s.output j := by
  have h := fc_loop_spec U (fc_end N c s.channels_out - fc_begin N c s.channels_out)
    (fc_begin N c s.channels_out) s
  have hle := fc_begin_le_end N c s.channels_out
  rw [Nat.add_sub_cancel' hle] at h
  exact h

/-- After the cores `0 .. m-1` have run, the buffers read by the kernel are
unchanged, an index in the range of one of them holds its golden value, and
an index in none of the ranges holds its initial value. -/
theorem cores_run_spec (N U m : Nat) (s : fc_args_t) :
    ((List.range m).foldl (fun t c => fully_connected N U c t) s).input = s.input
    ∧ ((List.range m).foldl (fun t c => fully_connected N U c t) s).weights = s.weights
    ∧ ((List.range m).foldl (fun t c => fully_connected N U c t) s).channels_in = s.channels_in
    ∧ ((List.range m).foldl (fun t c => fully_connected N U c t) s).channels_out
        = s.channels_out
    ∧ (∀ j c, c < m → fc_begin N c s.channels_out ≤ j → j < fc_end N c s.channels_out →
        ((List.range m).foldl (fun t c => fully_connected N U c t) s).output j = golden s j)
    ∧ (∀ j, (∀ c, c < m → ¬(fc_begin N c s.channels_out ≤ j ∧ j < fc_end N c s.channels_out)) →
        ((List.range m).foldl (fun t c => fully_connected N U c t) s).output j = s.output j) := by
  induction m with
  | zero =>
    refine ⟨rfl, rfl, rfl, rfl, fun j c hc => absurd hc (Nat.not_lt_zero c), fun j _ => rfl⟩
  | succ m ih =>
    obtain ⟨hi, hw, hci, hco, hin, hout⟩ := ih
    rw [List.range_succ, List.foldl_append, List.foldl_cons, List.foldl_nil]
    generalize (List.range m).foldl (fun t c => fully_connected N U c t) s = t at *
    obtain ⟨ki, kw, kci, kco, ko⟩ := fully_connected_spec N U m t
    rw [hco, golden_congr s t hi hw hci] at ko
    refine ⟨ki.trans hi, kw.trans hw, kci.trans hci, kco.trans hco, fun j c hc hb he => ?_,
      fun j hj => ?_⟩
    · rw [ko j]
      by_cases hm : fc_begin N m s.channels_out ≤ j ∧ j < fc_end N m s.channels_out
      · simp only [hm, and_self, if_true]
      · simp only [hm, if_false]
        have hcm : c ≠ m := fun e => hm (e ▸ ⟨hb, he⟩)
        exact hin j c (by omega) hb he
    · rw [ko j]
      simp only [hj m (Nat.lt_succ_self m), if_false]
      exact hout j (fun c hc => hj c (Nat.lt_succ_of_lt hc))

/-! ## Reads of the vectorized routine -/

theorem loadV4_reads (p : Nat → Int) (i : Nat) :
    (loadV4_indices i).map p = [(loadV4 p i).l0, (loadV4 p i).l1, (loadV4 p i).l2, (loadV4 p i).l3] :=
  rfl

theorem simd_group_reads_loop (q : Nat) :
    (List.range q).foldl (fun reads i => reads ++ loadV4_indices i) [] = List.range (4 * q) := by
  induction q with
  | zero => rfl
  | succ q ih =>
    rw [List.range_succ, List.foldl_append, List.foldl_cons, List.foldl_nil, ih]
    have e : 4 * (q + 1) = 4 * q + 1 + 1 + 1 + 1 := by ring
    rw [e, List.range_succ, List.range_succ, List.range_succ, List.range_succ]
    simp [loadV4_indices]

theorem tail_reads_loop (b n : Nat) :
    (List.range' b n).foldl (fun reads i => reads ++ [i]) [] = List.range' b n := by
  induction n with
  | zero => rfl
  | succ n ih =>
    rw [List.range'_concat, List.foldl_append, List.foldl_cons, List.foldl_nil, ih]

theorem simd_group_reads_eq (L : Nat) : simd_group_reads L = List.range (L / 4 * 4) := by
  unfold simd_group_reads
  rw [simd_group_reads_loop, Nat.mul_comm]

theorem simd_tail_reads_eq (L : Nat) :
    simd_tail_reads L = List.range' (L / 4 * 4) (L - L / 4 * 4) := by
  unfold simd_tail_reads
  simp only [tail_reads_loop]
  congr 1
  omega

theorem simd_reads_eq_range (L : Nat) :
    simd_group_reads L ++ simd_tail_reads L = List.range L := by
  have h := List.range'_append_1 0 (L / 4 * 4) (L - L / 4 * 4)
  rw [Nat.zero_add] at h
  rw [simd_group_reads_eq, simd_tail_reads_eq, List.range_eq_range', List.range_eq_range', h]
  congr 1
  omega

/-! ## Composition of kernel calls -/

theorem fc_args_ext (s t : fc_args_t) (hi : s.input = t.input) (hw : s.weights = t.weights)
    (ho : s.output = t.output) (hci : s.channels_in = t.channels_in)
    (hco : s.channels_out = t.channels_out) : s = t := by
  cases s; cases t; simp_all

/-- After the cores of a list have run, in the order of the list, the buffers
read by the kernel are unchanged, an index in the range of a listed core holds
its golden value and an index in the range of none holds its initial value. -/
theorem cores_list_spec (N U : Nat) (l : List Nat) (s : fc_args_t) :
    (l.foldl (fun t c => fully_connected N U c t) s).input = s.input
    ∧ (l.foldl (fun t c => fully_connected N U c t) s).weights = s.weights
    ∧ (l.foldl (fun t c => fully_connected N U c t) s).channels_in = s.channels_in
    ∧ (l.foldl (fun t c => fully_connected N U c t) s).channels_out = s.channels_out
    ∧ (∀ j c, c ∈ l → fc_begin N c s.channels_out ≤ j → j < fc_end N c s.channels_out →
        (l.foldl (fun t c => fully_connected N U c t) s).output j = golden s j)
    ∧ (∀ j, (∀ c, c ∈ l → ¬(fc_begin N c s.channels_out ≤ j ∧ j < fc_end N c s.channels_out)) →
        (l.foldl (fun t c => fully_connected N U c t) s).output j = s.output j) := by
  induction l generalizing s with
  | nil =>
    refine ⟨rfl, rfl, rfl, rfl, fun j c hc => absurd hc (List.not_mem_nil c), fun j _ => rfl⟩
  | cons d l ih =>
    obtain ⟨ki, kw, kci, kco, ko⟩ := fully_connected_spec N U d s
    obtain ⟨hi, hw, hci, hco, hin, hout⟩ := ih (fully_connected N U d s)
    rw [kco, golden_congr s _ ki kw kci] at hin
    rw [kco] at hout
    rw [List.foldl_cons]
    refine ⟨hi.trans ki, hw.trans kw, hci.trans kci, hco.trans kco, fun j c hc hb he => ?_,
      fun j hj => ?_⟩
    · by_cases hl : ∃ c', c' ∈ l ∧ fc_begin N c' s.channels_out ≤ j
          ∧ j < fc_end N c' s.channels_out
      · obtain ⟨c', hc', hb', he'⟩ := hl
        exact hin j c' hc' hb' he'
      · have hnone : ∀ c', c' ∈ l →
            ¬(fc_begin N c' s.channels_out ≤ j ∧ j < fc_end N c' s.channels_out) :=
          fun c' hc' hr => hl ⟨c', hc', hr.1, hr.2⟩
        have hcd : c = d := by
          rcases List.mem_cons.1 hc with h | h
          · exact h
          · exact absurd ⟨hb, he⟩ (hnone c h)
        subst hcd
        rw [hout j hnone, ko j, if_pos ⟨hb, he⟩]
    · rw [hout j (fun c hc => hj c (List.mem_cons_of_mem d hc)), ko j,
        if_neg (hj d (List.mem_cons_self d l))]

/-- Two lists with the same cores leave the same memory. -/
theorem cores_list_congr (N U : Nat) (l₁ l₂ : List Nat) (s : fc_args_t)
    (h : ∀ c, c ∈ l₁ ↔ c ∈ l₂) :
    l₁.foldl (fun t c => fully_connected N U c t) s
      = l₂.foldl (fun t c => fully_connected N U c t) s := by
  obtain ⟨hi, hw, hci, hco, hin, hout⟩ := cores_list_spec N U l₁ s
  obtain ⟨ki, kw, kci, kco, kin, kout⟩ := cores_list_spec N U l₂ s
  refine fc_args_ext _ _ (hi.trans ki.symm) (hw.trans kw.symm) ?_ (hci.trans kci.symm)
    (hco.trans kco.symm)
  funext j
  by_cases hl : ∃ c, c ∈ l₁ ∧ fc_begin N c s.channels_out ≤ j ∧ j < fc_end N c s.channels_out
  · obtain ⟨c, hc, hb, he⟩ := hl
    rw [hin j c hc hb he, kin j c ((h c).1 hc) hb he]
  · have h1 : ∀ c, c ∈ l₁ →
        ¬(fc_begin N c s.channels_out ≤ j ∧ j < fc_end N c s.channels_out) :=
      fun c hc hr => hl ⟨c, hc, hr.1, hr.2⟩
    have h2 : ∀ c, c ∈ l₂ →
        ¬(fc_begin N c s.channels_out ≤ j ∧ j < fc_end N c s.channels_out) :=
      fun c hc => h1 c ((h c).2 hc)
    rw [hout j h1, kout j h2]

/-! ## The ranges on a power-of-two core count -/

theorem fc_begin_two_pow (k c co : Nat) (hc : c < 2 ^ k) :
    fc_begin (2 ^ k) c co = fc_size (2 ^ k) co * c := by
  have h := (fc_arith_le_channels_out k c co hc).1
  unfold fc_begin; omega

theorem fc_end_two_pow (k c co : Nat) (hc : c < 2 ^ k) :
    fc_end (2 ^ k) c co = fc_size (2 ^ k) co * c + fc_size (2 ^ k) co := by
  have h := (fc_arith_le_channels_out k c co hc).2
  rw [fc_begin_two_pow k c co hc] at h
  unfold fc_end
  rw [fc_begin_two_pow k c co hc]; omega

/-- The indices that lie in the range of some core are those below
`size * NUM_CORES`. -/
theorem fc_range_mem_iff (k co j : Nat) :
    (∃ c, c < 2 ^ k ∧ fc_begin (2 ^ k) c co ≤ j ∧ j < fc_end (2 ^ k) c co)
      ↔ j < fc_size (2 ^ k) co * 2 ^ k := by
  constructor
  · rintro ⟨c, hc, hb, he⟩
    rw [fc_end_two_pow k c co hc] at he
    have h1 : fc_size (2 ^ k) co * (c + 1) ≤ fc_size (2 ^ k) co * 2 ^ k :=
      Nat.mul_le_mul_left _ hc
    rw [Nat.mul_succ] at h1
    omega
  · intro hj
    have hpos : 0 < fc_size (2 ^ k) co := by
      rcases Nat.eq_zero_or_pos (fc_size (2 ^ k) co) with h0 | h0
      · rw [h0, Nat.zero_mul] at hj; omega
      · exact h0
    have hc : j / fc_size (2 ^ k) co < 2 ^ k := Nat.div_lt_of_lt_mul hj
    refine ⟨j / fc_size (2 ^ k) co, hc, ?_, ?_⟩
    · rw [fc_begin_two_pow k _ co hc]
      exact Nat.mul_div_le j _
    · rw [fc_end_two_pow k _ co hc]
      have h1 := Nat.div_add_mod j (fc_size (2 ^ k) co)
      have h2 := Nat.mod_lt j hpos
      omega

/-- Output after the fork on a power-of-two core count: the golden value below
`size * NUM_CORES`, the initial value from there on. -/
theorem team_fork_output_two_pow (k U : Nat) (s : fc_args_t) (j : Nat) :
    (pi_cl_team_fork (2 ^ k) (fully_connected (2 ^ k) U) s).output j
      = if j < fc_size (2 ^ k) s.channels_out * 2 ^ k then golden s j else s.output j := by
  obtain ⟨_, _, _, _, hin, hout⟩ := cores_run_spec (2 ^ k) U (2 ^ k) s
  unfold pi_cl_team_fork
  by_cases hj : j < fc_size (2 ^ k) s.channels_out * 2 ^ k
  · obtain ⟨c, hc, hb, he⟩ := (fc_range_mem_iff k s.channels_out j).2 hj
    rw [if_pos hj]
    exact hin j c hc hb he
  · rw [if_neg hj]
    exact hout j (fun c hc hr => hj ((fc_range_mem_iff k s.channels_out j).1 ⟨c, hc, hr.1, hr.2⟩))

/-! ## Accumulators that do not wrap -/

theorem term_bounds (x y : Int) : -32640 ≤ u8 x * i8 y ∧ u8 x * i8 y ≤ 32385 := by
  obtain ⟨h1, h2⟩ := u8_range x
  obtain ⟨h3, h4⟩ := i8_range y
  have hlo : 0 ≤ u8 x * (i8 y + 128) := mul_nonneg h1 (by omega)
  have hhi : 0 ≤ u8 x * (127 - i8 y) := mul_nonneg h1 (by omega)
  constructor
  · nlinarith
  · nlinarith

/-- A sum of `n` products lies between `-32640 * n` and `32385 * n`. -/
theorem sum_terms_bounds (a b : Nat → Int) (n : Nat) :
    -32640 * (n : Int) ≤ ∑ i in Finset.range n, u8 (a i) * i8 (b i)
    ∧ ∑ i in Finset.range n, u8 (a i) * i8 (b i) ≤ 32385 * (n : Int) := by
  induction n with
  | zero => simp
  | succ n ih =>
    obtain ⟨h1, h2⟩ := term_bounds (a n) (b n)
    rw [Finset.sum_range_succ]
    push_cast
    constructor
    · linarith [ih.1]
    · linarith [ih.2]

/-- Up to 65793 products the sum fits in `int32_t`. -/
theorem sum_terms_in_int32 (a b : Nat → Int) (n : Nat) (hn : n ≤ 65793) :
    -2147483648 ≤ ∑ i in Finset.range n, u8 (a i) * i8 (b i)
    ∧ ∑ i in Finset.range n, u8 (a i) * i8 (b i) ≤ 2147483647 := by
  obtain ⟨h1, h2⟩ := sum_terms_bounds a b n
  have hc : (n : Int) ≤ 65793 := by exact_mod_cast hn
  have h0 : (0 : Int) ≤ n := Int.ofNat_nonneg n
  constructor
  · linarith
  · linarith

theorem foldl_simd_fixed (a b : Nat → Int) (q : Nat) :
    wrap32 ((List.range q).foldl (fun sum i => SumDotp4 (loadV4 a i) (loadV4 b i) sum) 0)
      = (List.range q).foldl (fun sum i => SumDotp4 (loadV4 a i) (loadV4 b i) sum) 0 := by
  cases q with
  | zero => simp [wrap32]
  | succ q =>
    rw [List.range_succ, List.foldl_append, List.foldl_cons, List.foldl_nil]
    exact wrap32_idem _

theorem take_range'_of_le (t : Nat) : ∀ b m : Nat, t ≤ m →
    (List.range' b m).take t = List.range' b t := by
  induction t with
  | zero => intro b m _; simp
  | succ t ih =>
    intro b m h
    obtain ⟨m', rfl⟩ : ∃ m', m = m' + 1 := ⟨m - 1, by omega⟩
    rw [List.range'_succ, List.take_succ_cons, ih (b + 1) m' (by omega), List.range'_succ]

/-! ## Any core count, through `log2core` alone -/

/-- For every core count, whatever `log2(NUM_CORES)` is: on a multiple
`m * 2^log2core` the remainder bit is 0 and the returned size is `m`. -/
theorem calculate_per_core_size_mul_pow_log2 (N m : Nat) :
    calculate_per_core_size N (m * 2 ^ log2 N) = m := by
  unfold calculate_per_core_size
  generalize log2 N = l
  have hm : m * 2 ^ l % 2 ^ l = 0 := Nat.mul_mod_left m (2 ^ l)
  simp only [Nat.one_shiftLeft, Nat.and_pow_two_sub_one_eq_mod, hm, ne_eq, not_true_eq_false,
    if_false, Nat.add_zero, Nat.shiftRight_eq_div_pow]
  exact Nat.mul_div_cancel m (Nat.pow_pos (by decide))

/-- For every core count, whatever `log2(NUM_CORES)` is: on `m * 2^log2core`
outputs a core below `2^log2core` gets the range `[m * c, m * c + m)`. -/
theorem fc_range_mul_pow_log2 (N m c : Nat) (hc : c < 2 ^ log2 N) :
    fc_begin N c (m * 2 ^ log2 N) = m * c
    ∧ fc_end N c (m * 2 ^ log2 N) = m * c + m := by
  have hs : fc_size N (m * 2 ^ log2 N) = m := calculate_per_core_size_mul_pow_log2 N m
  have h1 : m * (c + 1) ≤ m * 2 ^ log2 N := Nat.mul_le_mul_left _ hc
  rw [Nat.mul_succ] at h1
  unfold fc_end fc_begin
  rw [hs]
  omega

/-! ## Properties of the specification -/

/-- C1: for every buffer pair and length `L`, `dotp_u8_i8_i32 a b L` is the sum
over `i < L` of `a[i] * b[i]`, with `a[i]` read as a value in `0..255` and
`b[i]` as a value in `-128..127`, reduced to a signed 32-bit integer by
wraparound modulo `2^32`: it lies in `[-2^31, 2^31)` and is congruent to the
sum.  On `a = [255]`, `b = [-1]` it is `-255`. -/
theorem C1_dotp_u8_i8_i32_wrapped_sum :
    (∀ (a b : Nat → Int) (L : Nat),
      dotp_u8_i8_i32 a b L = wrap32 (∑ i in Finset.range L, u8 (a i) * i8 (b i))
      ∧ -2147483648 ≤ dotp_u8_i8_i32 a b L ∧ dotp_u8_i8_i32 a b L < 2147483648
      ∧ (dotp_u8_i8_i32 a b L - ∑ i in Finset.range L, u8 (a i) * i8 (b i)) % 4294967296 = 0
      ∧ ∀ i, (0 ≤ u8 (a i) ∧ u8 (a i) ≤ 255) ∧ (-128 ≤ i8 (b i) ∧ i8 (b i) ≤ 127))
    ∧ dotp_u8_i8_i32 (fun _ => 255) (fun _ => -1) 1 = -255 := by
  refine ⟨fun a b L => ?_, by decide⟩
  rw [dotp_u8_i8_i32_eq_sum]
  exact ⟨rfl, (wrap32_range _).1, (wrap32_range _).2, wrap32_congr _,
    fun i => ⟨u8_range _, i8_range _⟩⟩

/-- C2: for every buffer pair and length, the vectorized dot product returns
the same signed 32-bit value as the scalar one. -/
theorem C2_simd_eq_scalar (a b : Nat → Int) (L : Nat) :
    dotp_u8_i8_i32_simd a b L = dotp_u8_i8_i32 a b L := by
  rw [dotp_u8_i8_i32_simd_eq_sum, dotp_u8_i8_i32_eq_sum]

/-- C3 (the code at a failing input): with `NUM_CORES = 2` and
`channels_out = 5`, after every core has run, index 2 of the output still
holds its initial value whatever routine is selected, while its golden value
is 1; from a zero output buffer the result is `[1, 1, 0, 0, 0]` against the
golden `[1, 1, 1, 1, 1]`, three mismatches. -/
theorem C3_uneven_output_mismatch :
    (∀ (U : Nat) (o : Nat → Int),
      (pi_cl_team_fork 2 (fully_connected 2 U) (uneven_args o)).output 2 = o 2
      ∧ golden (uneven_args o) 2 = 1)
    ∧ (List.range 5).map
        (pi_cl_team_fork 2 (fully_connected 2 0) (uneven_args (fun _ => 0))).output
        = [1, 1, 0, 0, 0]
    ∧ (List.range 5).map (golden (uneven_args (fun _ => 0))) = [1, 1, 1, 1, 1]
    ∧ count_errors 5
        (pi_cl_team_fork 2 (fully_connected 2 0) (uneven_args (fun _ => 0))).output
        (golden (uneven_args (fun _ => 0))) = 3 := by
  refine ⟨fun U o => ⟨?_, ?_⟩, by decide, by decide, by decide⟩
  · have hnone : ∀ c, c < 2 → ¬(fc_begin 2 c 5 ≤ 2 ∧ 2 < fc_end 2 c 5) := by decide
    exact (cores_run_spec 2 U 2 (uneven_args o)).2.2.2.2.2 2 hnone
  · have e : golden (uneven_args o) = golden (uneven_args (fun _ => 0)) :=
      golden_congr _ _ rfl rfl rfl
    rw [e]; decide

/-- C4 (the code at a failing input): with `NUM_CORES = 2` and
`channels_out = 5` the two ranges are `[0, 1)` and `[1, 2)`; of the indices
below 5 only 0 and 1 lie in the range of a core, and 2, 3 and 4 in none. -/
theorem C4_uneven_index_uncovered :
    (fc_begin 2 0 5, fc_end 2 0 5) = (0, 1) ∧ (fc_begin 2 1 5, fc_end 2 1 5) = (1, 2)
    ∧ (List.range 5).filter (fun j => (List.range 2).any
        (fun c => decide (fc_begin 2 c 5 ≤ j ∧ j < fc_end 2 c 5))) = [0, 1] := by
  decide

/-- C5 (the code at a failing input): with `NUM_CORES = 2`,
`calculate_per_core_size 5` is `5 >> 2 = 1`, while the ceiling division
`(5 + 2 - 1) / 2` is 3. -/
theorem C5_size_five_two_cores :
    calculate_per_core_size 2 5 = 1 ∧ (5 + 2 - 1) / 2 = 3 := by
  decide

/-- C6: for a power-of-two core count and two distinct core identities below
it, no index lies in both computed ranges. -/
theorem C6_ranges_disjoint (k channels_out c1 c2 j : Nat) (_h1 : c1 < 2 ^ k)
    (_h2 : c2 < 2 ^ k) (hne : c1 ≠ c2) :
    ¬((fc_begin (2 ^ k) c1 channels_out ≤ j ∧ j < fc_end (2 ^ k) c1 channels_out)
      ∧ (fc_begin (2 ^ k) c2 channels_out ≤ j ∧ j < fc_end (2 ^ k) c2 channels_out)) :=
  fun h => fc_ranges_disjoint (2 ^ k) channels_out c1 c2 j hne h.1 h.2

/-- Instance of C6 on two cores and four outputs: index 1 belongs to core 0
and not to both cores. -/
theorem C6_ranges_disjoint_witness :
    (0 < 2 ^ 1 ∧ 1 < 2 ^ 1 ∧ 0 ≠ 1 ∧ fc_begin (2 ^ 1) 0 4 ≤ 1 ∧ 1 < fc_end (2 ^ 1) 0 4)
    ∧ ¬((fc_begin (2 ^ 1) 0 4 ≤ 1 ∧ 1 < fc_end (2 ^ 1) 0 4)
      ∧ (fc_begin (2 ^ 1) 1 4 ≤ 1 ∧ 1 < fc_end (2 ^ 1) 1 4)) :=
  ⟨by decide, C6_ranges_disjoint 1 4 0 1 1 (by decide) (by decide) (by decide)⟩

/-- C7 (the code at a failing input): with `NUM_CORES = 4` and
`channels_out = 9` the size is `9 >> 3 = 1` and the range of each of the four
cores has length 1, which is neither the ceiling `(9 + 4 - 1) / 4 = 3` nor 0. -/
theorem C7_uneven_range_length :
    calculate_per_core_size 4 9 = 1
    ∧ (List.range 4).map (fun c => fc_end 4 c 9 - fc_begin 4 c 9) = [1, 1, 1, 1]
    ∧ (9 + 4 - 1) / 4 = 3 := by
  decide

/-- C8: in the end-to-end scenario with two cores, whichever dot-product
routine is selected and whatever the output buffer holds before, core 0 has
the range `[0, 2)` and writes 8 and 2 at the indices 0 and 1 only, core 1 has
the range `[2, 4)` and writes -8 and 1 at the indices 2 and 3 only, and after
both cores the output is `[8, 2, -8, 1]`. -/
theorem C8_end_to_end_scenario (U : Nat) (o : Nat → Int) :
    ((fc_begin 2 0 4, fc_end 2 0 4) = (0, 2) ∧ (fc_begin 2 1 4, fc_end 2 1 4) = (2, 4))
    ∧ (∀ j, (fully_connected 2 U 0 (scenario o)).output j
        = if j = 0 then 8 else if j = 1 then 2 else o j)
    ∧ (∀ j, (fully_connected 2 U 1 (scenario o)).output j
        = if j = 2 then -8 else if j = 3 then 1 else o j)
    ∧ (List.range 4).map (pi_cl_team_fork 2 (fully_connected 2 U) (scenario o)).output
        = [8, 2, -8, 1] := by
  have e : golden (scenario o) = golden (scenario (fun _ => 0)) :=
    golden_congr _ _ rfl rfl rfl
  have g0 : golden (scenario o) 0 = 8 := by rw [e]; decide
  have g1 : golden (scenario o) 1 = 2 := by rw [e]; decide
  have g2 : golden (scenario o) 2 = -8 := by rw [e]; decide
  have g3 : golden (scenario o) 3 = 1 := by rw [e]; decide
  have r0 : (fc_begin 2 0 4, fc_end 2 0 4) = (0, 2) := by decide
  have r1 : (fc_begin 2 1 4, fc_end 2 1 4) = (2, 4) := by decide
  have b0 : fc_begin 2 0 4 = 0 := congrArg Prod.fst r0
  have e0 : fc_end 2 0 4 = 2 := congrArg Prod.snd r0
  have b1 : fc_begin 2 1 4 = 2 := congrArg Prod.fst r1
  have e1 : fc_end 2 1 4 = 4 := congrArg Prod.snd r1
  have hco : (scenario o).channels_out = 4 := rfl
  have ho : (scenario o).output = o := rfl
  refine ⟨⟨r0, r1⟩, fun j => ?_, fun j => ?_, ?_⟩
  · rw [(fully_connected_spec 2 U 0 (scenario o)).2.2.2.2 j, hco, b0, e0, ho]
    by_cases h0 : j = 0
    · subst h0; simp [g0]
    · by_cases h1 : j = 1
      · subst h1; simp [g1]
      · have hn : ¬(0 ≤ j ∧ j < 2) := by omega
        rw [if_neg hn, if_neg h0, if_neg h1]
  · rw [(fully_connected_spec 2 U 1 (scenario o)).2.2.2.2 j, hco, b1, e1, ho]
    by_cases h2 : j = 2
    · subst h2; simp [g2]
    · by_cases h3 : j = 3
      · subst h3; simp [g3]
      · have hn : ¬(2 ≤ j ∧ j < 4) := by omega
        rw [if_neg hn, if_neg h2, if_neg h3]
  · have hall := (cores_run_spec 2 U 2 (scenario o)).2.2.2.2.1
    rw [hco] at hall
    have h0 := hall 0 0 (by decide) (by decide) (by decide)
    have h1 := hall 1 0 (by decide) (by decide) (by decide)
    have h2 := hall 2 1 (by decide) (by decide) (by decide)
    have h3 := hall 3 1 (by decide) (by decide) (by decide)
    rw [g0] at h0; rw [g1] at h1; rw [g2] at h2; rw [g3] at h3
    unfold pi_cl_team_fork
    generalize (List.range 2).foldl (fun t c => fully_connected 2 U c t) (scenario o) = t
      at h0 h1 h2 h3 ⊢
    show [t.output 0, t.output 1, t.output 2, t.output 3] = [8, 2, -8, 1]
    rw [h0, h1, h2, h3]

/-- C9: on every core of `[0, NUM_CORES)`, `fully_connected` works on
`begin = min(size * core_id, channels_out)` and
`end = min(begin + size, channels_out)` with
`size = calculate_per_core_size(channels_out)`, and after the call every `i`
of `[begin, end)` has `output[i]` equal to the dot product, of length
`channels_in`, of the input with the weight cells
`[i * channels_in, (i + 1) * channels_in)`. -/
theorem C9_slice_holds_dot_products (N U core_id : Nat) (s : fc_args_t)
    (_hc : core_id < N) (i : Nat)
    (hb : min (calculate_per_core_size N s.channels_out * core_id) s.channels_out ≤ i)
    (he : i < min (min (calculate_per_core_size N s.channels_out * core_id) s.channels_out
      + calculate_per_core_size N s.channels_out) s.channels_out) :
    fully_connected N U core_id s
      = (List.range' (min (calculate_per_core_size N s.channels_out * core_id) s.channels_out)
          (min (min (calculate_per_core_size N s.channels_out * core_id) s.channels_out
              + calculate_per_core_size N s.channels_out) s.channels_out
            - min (calculate_per_core_size N s.channels_out * core_id) s.channels_out)).foldl
          (fc_body U) s
    ∧ (fully_connected N U core_id s).output i
      = dotp_u8_i8_i32 s.input (fun k => s.weights (i * s.channels_in + k)) s.channels_in
    ∧ (fully_connected N U core_id s).output i
      = wrap32 (∑ k in Finset.range s.channels_in,
          u8 (s.input k) * i8 (s.weights (i * s.channels_in + k))) := by
  have h := (fully_connected_spec N U core_id s).2.2.2.2 i
  have hr : fc_begin N core_id s.channels_out ≤ i ∧ i < fc_end N core_id s.channels_out :=
    ⟨hb, he⟩
  rw [if_pos hr] at h
  exact ⟨rfl, by rw [h, dotp_u8_i8_i32_eq_sum]; rfl, h⟩

/-- Instance of C9 in the end-to-end scenario: core 1 leaves the dot product of
row 2 at index 2. -/
theorem C9_slice_holds_dot_products_witness :
    (1 < 2
      ∧ min (calculate_per_core_size 2 (scenario (fun _ => 0)).channels_out * 1)
          (scenario (fun _ => 0)).channels_out ≤ 2)
    ∧ (fully_connected 2 0 1 (scenario (fun _ => 0))).output 2
      = wrap32 (∑ k in Finset.range (scenario (fun _ => 0)).channels_in,
          u8 ((scenario (fun _ => 0)).input k)
            * i8 ((scenario (fun _ => 0)).weights (2 * (scenario (fun _ => 0)).channels_in + k))) :=
  ⟨by decide,
    (C9_slice_holds_dot_products 2 0 1 (scenario (fun _ => 0)) (by decide) 2 (by decide)
      (by decide)).2.2⟩

/-- C10: a call of `fully_connected` changes the output buffer only inside the
range of its core: every `output[k]` with `k < begin` or `k >= end` holds
after the call what it held before, and the input vector and the weight matrix
are unchanged. -/
theorem C10_frame (N U core_id : Nat) (s : fc_args_t) (k : Nat)
    (hk : k < fc_begin N core_id s.channels_out ∨ fc_end N core_id s.channels_out ≤ k) :
    (fully_connected N U core_id s).output k = s.output k
    ∧ (fully_connected N U core_id s).input = s.input
    ∧ (fully_connected N U core_id s).weights = s.weights := by
  obtain ⟨hi, hw, _, _, ho⟩ := fully_connected_spec N U core_id s
  have hn : ¬(fc_begin N core_id s.channels_out ≤ k ∧ k < fc_end N core_id s.channels_out) := by
    omega
  exact ⟨by rw [ho k, if_neg hn], hi, hw⟩

/-- Instance of C10 in the end-to-end scenario: core 0 leaves index 3 as it
was. -/
theorem C10_frame_witness :
    (fc_end 2 0 (scenario (fun _ => 7)).channels_out ≤ 3)
    ∧ (fully_connected 2 1 0 (scenario (fun _ => 7))).output 3 = 7 :=
  ⟨by decide, (C10_frame 2 1 0 (scenario (fun _ => 7)) 3 (Or.inr (by decide))).1⟩

/-- C11: for every length `L`, the group loop of `dotp_u8_i8_i32_simd` consumes
exactly the indices `[0, begin)` with `begin = floor(L/4)*4`, the tail loop
exactly the indices `[begin, end)` with `end = begin + L mod 4 = L`; together
they are the indices `0, 1, .., L-1`, each once and none outside `[0, L)`, and
the routine is the accumulation over them.  In particular for
`L = 0, 1, 2, 3, 4, 5, 7, 8`. -/
theorem C11_simd_split_exact :
    (∀ L : Nat,
      simd_group_reads L = List.range' 0 (L / 4 * 4)
      ∧ simd_tail_reads L = List.range' (L / 4 * 4) (L - L / 4 * 4)
      ∧ L / 4 * 4 + L % 4 = L
      ∧ simd_group_reads L ++ simd_tail_reads L = List.range L
      ∧ (simd_group_reads L ++ simd_tail_reads L).Nodup
      ∧ (∀ i, i ∈ simd_group_reads L ++ simd_tail_reads L ↔ i < L)
      ∧ ∀ a b : Nat → Int, dotp_u8_i8_i32_simd a b L
          = (simd_group_reads L ++ simd_tail_reads L).foldl
              (fun sum i => wrap32 (sum + u8 (a i) * i8 (b i))) 0)
    ∧ [0, 1, 2, 3, 4, 5, 7, 8].map (fun L => (simd_group_reads L, simd_tail_reads L))
      = [([], []), ([], [0]), ([], [0, 1]), ([], [0, 1, 2]), ([0, 1, 2, 3], []),
         ([0, 1, 2, 3], [4]), ([0, 1, 2, 3], [4, 5, 6]), ([0, 1, 2, 3, 4, 5, 6, 7], [])] := by
  refine ⟨fun L => ⟨?_, simd_tail_reads_eq L, by omega, simd_reads_eq_range L, ?_, ?_, ?_⟩,
    by decide⟩
  · rw [simd_group_reads_eq, List.range_eq_range']
  · rw [simd_reads_eq_range]; exact List.nodup_range L
  · intro i; rw [simd_reads_eq_range]; exact List.mem_range
  · intro a b
    rw [simd_reads_eq_range, dotp_u8_i8_i32_simd_eq_sum, ← dotp_u8_i8_i32_eq_sum]
    rfl

/-- C12: for two core identities below `NUM_CORES` and every starting memory,
running `fully_connected` for `c1` then `c2` leaves the same memory, the output
buffer in particular, as running it for `c2` then `c1`; and running the cores
in the order of any permutation of `0 .. NUM_CORES-1` leaves the same memory as
the fork over all cores. -/
theorem C12_core_order_irrelevant (N U c1 c2 : Nat) (s : fc_args_t) (order : List Nat)
    (_h1 : c1 < N) (_h2 : c2 < N) (hperm : order.Perm (List.range N)) :
    fully_connected N U c2 (fully_connected N U c1 s)
      = fully_connected N U c1 (fully_connected N U c2 s)
    ∧ (fully_connected N U c2 (fully_connected N U c1 s)).output
      = (fully_connected N U c1 (fully_connected N U c2 s)).output
    ∧ order.foldl (fun t c => fully_connected N U c t) s
      = pi_cl_team_fork N (fully_connected N U) s := by
  have hc : fully_connected N U c2 (fully_connected N U c1 s)
      = fully_connected N U c1 (fully_connected N U c2 s) :=
    cores_list_congr N U [c1, c2] [c2, c1] s (fun c => by simp [or_comm])
  exact ⟨hc, congrArg fc_args_t.output hc,
    cores_list_congr N U order (List.range N) s (fun c => hperm.mem_iff)⟩

/-- Instance of C12 on two cores in the end-to-end scenario, cores run in the
order 1, 0. -/
theorem C12_core_order_irrelevant_witness :
    (0 < 2 ∧ 1 < 2 ∧ [1, 0].Perm (List.range 2))
    ∧ [1, 0].foldl (fun t c => fully_connected 2 0 c t) (scenario (fun _ => 0))
      = pi_cl_team_fork 2 (fully_connected 2 0) (scenario (fun _ => 0)) :=
  ⟨⟨by decide, by decide, by decide⟩,
    (C12_core_order_irrelevant 2 0 0 1 (scenario (fun _ => 0)) [1, 0] (by decide) (by decide)
      (by decide)).2.2⟩

/-- C13: `fully_connected` is idempotent per core: with the input, the weights
and the dimensions unchanged, a second run for the same core leaves the
memory, the output buffer in particular, exactly as the first run left it. -/
theorem C13_idempotent_per_core (N U core_id : Nat) (s : fc_args_t) :
    fully_connected N U core_id (fully_connected N U core_id s)
      = fully_connected N U core_id s
    ∧ (fully_connected N U core_id (fully_connected N U core_id s)).output
      = (fully_connected N U core_id s).output := by
  have hc : fully_connected N U core_id (fully_connected N U core_id s)
      = fully_connected N U core_id s :=
    cores_list_congr N U [core_id, core_id] [core_id] s (fun c => by simp)
  exact ⟨hc, congrArg fc_args_t.output hc⟩

/-- C14: on a power-of-two core count the computed ranges are contiguous and
order-preserving: core 0 begins at 0, and the end of core `c` is the begin of
core `c + 1` whenever `c + 1 < NUM_CORES`. -/
theorem C14_ranges_contiguous (k channels_out c : Nat) (_hc : c + 1 < 2 ^ k) :
    fc_begin (2 ^ k) 0 channels_out = 0
    ∧ fc_end (2 ^ k) c channels_out = fc_begin (2 ^ k) (c + 1) channels_out
    ∧ fc_begin (2 ^ k) c channels_out ≤ fc_begin (2 ^ k) (c + 1) channels_out := by
  have hm : fc_size (2 ^ k) channels_out * (c + 1)
      = fc_size (2 ^ k) channels_out * c + fc_size (2 ^ k) channels_out := Nat.mul_succ _ _
  unfold fc_end fc_begin
  rw [hm, Nat.mul_zero]
  omega

/-- Instance of C14 on four cores and eight outputs: core 1 ends at 4, where
core 2 begins. -/
theorem C14_ranges_contiguous_witness :
    1 + 1 < 2 ^ 2
    ∧ fc_end (2 ^ 2) 1 8 = 4 ∧ fc_begin (2 ^ 2) (1 + 1) 8 = 4
    ∧ fc_end (2 ^ 2) 1 8 = fc_begin (2 ^ 2) (1 + 1) 8 :=
  ⟨by decide, by decide, by decide, (C14_ranges_contiguous 2 8 1 (by decide)).2.1⟩

/-- C15 (counterexample): 3 is not a power of two, yet with `NUM_CORES = 3`
nothing is rejected, whatever value `log2(3)` has: on `2 ^ log2(3)` outputs
`calculate_per_core_size` returns 1, core 0 gets the range `[0, 1)`, and
`fully_connected` stores the dot product 1 at index 0 of a zero output
buffer. -/
theorem C15_no_rejection_three_cores :
    (¬∃ k : Nat, 3 = 2 ^ k)
    ∧ calculate_per_core_size 3 (log2_args 3 (fun _ => 0)).channels_out = 1
    ∧ (fc_begin 3 0 (log2_args 3 (fun _ => 0)).channels_out,
        fc_end 3 0 (log2_args 3 (fun _ => 0)).channels_out) = (0, 1)
    ∧ (log2_args 3 (fun _ => 0)).output 0 = 0
    ∧ (fully_connected 3 0 0 (log2_args 3 (fun _ => 0))).output 0 = 1
    ∧ (fully_connected 3 1 0 (log2_args 3 (fun _ => 0))).output 0 = 1 := by
  have hco : (log2_args 3 (fun _ => 0)).channels_out = 1 * 2 ^ log2 3 := (Nat.one_mul _).symm
  have hs := calculate_per_core_size_mul_pow_log2 3 1
  obtain ⟨hb, he⟩ := fc_range_mul_pow_log2 3 1 0 (Nat.pow_pos (by decide))
  rw [← hco] at hs hb he
  have hg : golden (log2_args 3 (fun _ => 0)) 0 = 1 := by decide
  have hw : ∀ U, (fully_connected 3 U 0 (log2_args 3 (fun _ => 0))).output 0 = 1 := by
    intro U
    rw [(fully_connected_spec 3 U 0 (log2_args 3 (fun _ => 0))).2.2.2.2 0, hb, he,
      if_pos ⟨Nat.le_refl _, by decide⟩, hg]
  refine ⟨?_, hs, by rw [hb, he], rfl, hw 0, hw 1⟩
  rintro ⟨k, hk⟩
  rcases k with _ | _ | k
  · omega
  · omega
  · have h4 : 2 ^ (k + 1 + 1) = 4 * 2 ^ k := by ring
    have hp : 0 < 2 ^ k := Nat.pow_pos (by decide)
    omega

/-- C15 (amended): for every `NUM_CORES`, power of two or not, and whatever
value `log2core = log2(NUM_CORES)` has, the kernel runs unchecked: on
`channels_out = m * 2^log2core` outputs `calculate_per_core_size` returns `m`,
a core `core_id < 2^log2core` gets the range `[m * core_id, m * core_id + m)`,
and `fully_connected` stores the dot product of each row of that range and
leaves every other output cell as it was. -/
theorem C15_amended_runs_unchecked (N U m core_id : Nat) (s : fc_args_t) (j : Nat)
    (hco : s.channels_out = m * 2 ^ log2 N) (hc : core_id < 2 ^ log2 N) :
    calculate_per_core_size N s.channels_out = m
    ∧ fc_begin N core_id s.channels_out = m * core_id
    ∧ fc_end N core_id s.channels_out = m * core_id + m
    ∧ (fully_connected N U core_id s).output j
      = if m * core_id ≤ j ∧ j < m * core_id + m
        then wrap32 (∑ i in Finset.range s.channels_in,
          u8 (s.input i) * i8 (s.weights (j * s.channels_in + i)))
        else s.output j := by
  have hs := calculate_per_core_size_mul_pow_log2 N m
  obtain ⟨hb, he⟩ := fc_range_mul_pow_log2 N m core_id hc
  rw [← hco] at hs hb he
  refine ⟨hs, hb, he, ?_⟩
  rw [(fully_connected_spec N U core_id s).2.2.2.2 j, hb, he]
  rfl

/-- Instance of the amended C15 on three cores: with `2 ^ log2(3)` outputs the
size is 1 and core 0 has the range `[0, 1)`. -/
theorem C15_amended_runs_unchecked_witness :
    ((log2_args 3 (fun _ => 0)).channels_out = 1 * 2 ^ log2 3 ∧ 0 < 2 ^ log2 3)
    ∧ calculate_per_core_size 3 (log2_args 3 (fun _ => 0)).channels_out = 1
    ∧ fc_begin 3 0 (log2_args 3 (fun _ => 0)).channels_out = 1 * 0
    ∧ fc_end 3 0 (log2_args 3 (fun _ => 0)).channels_out = 1 * 0 + 1 :=
  ⟨⟨(Nat.one_mul _).symm, Nat.pow_pos (by decide)⟩,
    (C15_amended_runs_unchecked 3 0 1 0 (log2_args 3 (fun _ => 0)) 0 (Nat.one_mul _).symm
      (Nat.pow_pos (by decide))).1,
    (C15_amended_runs_unchecked 3 0 1 0 (log2_args 3 (fun _ => 0)) 0 (Nat.one_mul _).symm
      (Nat.pow_pos (by decide))).2.1,
    (C15_amended_runs_unchecked 3 0 1 0 (log2_args 3 (fun _ => 0)) 0 (Nat.one_mul _).symm
      (Nat.pow_pos (by decide))).2.2.1⟩

/-- C16: on `NUM_CORES = 2^k`, `calculate_per_core_size(size)` evaluates `+`
before `>>`: it is `size >> (k + r)` with `r = 1` if `size mod 2^k != 0` and
`r = 0` otherwise, that is `size / NUM_CORES` when `NUM_CORES` divides `size`
and `floor(size / (2 * NUM_CORES))` when it does not. -/
theorem C16_shift_by_sum (k size : Nat) :
    calculate_per_core_size (2 ^ k) size
      = size >>> (k + (if size % 2 ^ k ≠ 0 then 1 else 0))
    ∧ calculate_per_core_size (2 ^ k) size
      = (if 2 ^ k ∣ size then size / 2 ^ k else size / (2 * 2 ^ k)) := by
  have h := calculate_per_core_size_two_pow k size
  refine ⟨by rw [h, Nat.shiftRight_eq_div_pow], ?_⟩
  rw [h]
  by_cases hd : 2 ^ k ∣ size
  · have hm : size % 2 ^ k = 0 := Nat.mod_eq_zero_of_dvd hd
    simp only [hd, hm, ne_eq, not_true_eq_false, if_false, if_true, Nat.add_zero]
  · have hm : size % 2 ^ k ≠ 0 := fun h0 => hd (Nat.dvd_of_mod_eq_zero h0)
    simp only [hd, hm, ne_eq, not_false_eq_true, if_true, if_false]
    rw [Nat.pow_succ, Nat.mul_comm]

/-- C17: when `channels_out` is a multiple of `NUM_CORES = 2^k`,
`calculate_per_core_size(channels_out)` is `channels_out / NUM_CORES`, the
range of every core has exactly that length and stays within
`[0, channels_out)`, every index below `channels_out` lies in the range of
exactly one core, and after all cores have run `output[j]` is the dot product
of the input with weight row `j`. -/
theorem C17_even_division_correct (k U : Nat) (s : fc_args_t) (c j : Nat)
    (hdvd : 2 ^ k ∣ s.channels_out) (hc : c < 2 ^ k) (hj : j < s.channels_out) :
    calculate_per_core_size (2 ^ k) s.channels_out = s.channels_out / 2 ^ k
    ∧ fc_end (2 ^ k) c s.channels_out - fc_begin (2 ^ k) c s.channels_out
        = s.channels_out / 2 ^ k
    ∧ fc_end (2 ^ k) c s.channels_out ≤ s.channels_out
    ∧ (∃ c1, (c1 < 2 ^ k ∧ fc_begin (2 ^ k) c1 s.channels_out ≤ j
          ∧ j < fc_end (2 ^ k) c1 s.channels_out)
        ∧ ∀ c2, c2 < 2 ^ k → fc_begin (2 ^ k) c2 s.channels_out ≤ j →
          j < fc_end (2 ^ k) c2 s.channels_out → c2 = c1)
    ∧ (pi_cl_team_fork (2 ^ k) (fully_connected (2 ^ k) U) s).output j
        = dotp_u8_i8_i32 s.input (fun i => s.weights (j * s.channels_in + i)) s.channels_in
    ∧ (pi_cl_team_fork (2 ^ k) (fully_connected (2 ^ k) U) s).output j
        = wrap32 (∑ i in Finset.range s.channels_in,
            u8 (s.input i) * i8 (s.weights (j * s.channels_in + i))) := by
  have hsize : calculate_per_core_size (2 ^ k) s.channels_out = s.channels_out / 2 ^ k := by
    rw [calculate_per_core_size_two_pow]
    have hm : s.channels_out % 2 ^ k = 0 := Nat.mod_eq_zero_of_dvd hdvd
    simp only [hm, ne_eq, not_true_eq_false, if_false, Nat.add_zero]
  have hfs : fc_size (2 ^ k) s.channels_out = s.channels_out / 2 ^ k := hsize
  have hall : fc_size (2 ^ k) s.channels_out * 2 ^ k = s.channels_out := by
    rw [hfs]; exact Nat.div_mul_cancel hdvd
  have hcov : j < fc_size (2 ^ k) s.channels_out * 2 ^ k := by rw [hall]; exact hj
  obtain ⟨c1, hc1, hb1, he1⟩ := (fc_range_mem_iff k s.channels_out j).2 hcov
  have hout := team_fork_output_two_pow k U s j
  rw [if_pos hcov] at hout
  refine ⟨hsize, ?_, fc_end_le _ _ _, ⟨c1, ⟨hc1, hb1, he1⟩, fun c2 _ hb2 he2 => ?_⟩, ?_, hout⟩
  · rw [fc_end_two_pow k c _ hc, fc_begin_two_pow k c _ hc, hfs]; omega
  · by_cases h : c2 = c1
    · exact h
    · exact (fc_ranges_disjoint (2 ^ k) s.channels_out c2 c1 j h ⟨hb2, he2⟩ ⟨hb1, he1⟩).elim
  · rw [hout, dotp_u8_i8_i32_eq_sum]; rfl

/-- Instance of C17 in the end-to-end scenario, two cores and four outputs:
core 1 has a range of length 2 and index 3 holds the dot product of row 3. -/
theorem C17_even_division_correct_witness :
    (2 ^ 1 ∣ (scenario (fun _ => 0)).channels_out ∧ 1 < 2 ^ 1
      ∧ 3 < (scenario (fun _ => 0)).channels_out)
    ∧ calculate_per_core_size (2 ^ 1) (scenario (fun _ => 0)).channels_out
        = (scenario (fun _ => 0)).channels_out / 2 ^ 1
    ∧ fc_end (2 ^ 1) 1 (scenario (fun _ => 0)).channels_out
        - fc_begin (2 ^ 1) 1 (scenario (fun _ => 0)).channels_out
        = (scenario (fun _ => 0)).channels_out / 2 ^ 1 :=
  ⟨⟨by decide, by decide, by decide⟩,
    (C17_even_division_correct 1 0 (scenario (fun _ => 0)) 1 3 (by decide) (by decide)
      (by decide)).1,
    (C17_even_division_correct 1 0 (scenario (fun _ => 0)) 1 3 (by decide) (by decide)
      (by decide)).2.1⟩

/-- C18: on a power-of-two core count and a core below it, the computed range
satisfies `0 <= begin <= end <= channels_out`; so every index `i` of the range,
the only output indices written, is below `channels_out`, every output cell
from `channels_out` on is left as it was, and every weight index
`i * channels_in + k` read for `k < channels_in` is below
`channels_in * channels_out`. -/
theorem C18_accesses_in_bounds (k U core_id : Nat) (s : fc_args_t) (i k' : Nat)
    (_hc : core_id < 2 ^ k) (_hb : fc_begin (2 ^ k) core_id s.channels_out ≤ i)
    (he : i < fc_end (2 ^ k) core_id s.channels_out) (hk : k' < s.channels_in) :
    (0 ≤ fc_begin (2 ^ k) core_id s.channels_out
      ∧ fc_begin (2 ^ k) core_id s.channels_out ≤ fc_end (2 ^ k) core_id s.channels_out
      ∧ fc_end (2 ^ k) core_id s.channels_out ≤ s.channels_out)
    ∧ i < s.channels_out
    ∧ i * s.channels_in + k' < s.channels_in * s.channels_out
    ∧ ∀ j, s.channels_out ≤ j → (fully_connected (2 ^ k) U core_id s).output j = s.output j := by
  have hle := fc_begin_le_end (2 ^ k) core_id s.channels_out
  have hco := fc_end_le (2 ^ k) core_id s.channels_out
  have hi : i + 1 ≤ s.channels_out := by omega
  have hm : (i + 1) * s.channels_in ≤ s.channels_out * s.channels_in :=
    Nat.mul_le_mul_right _ hi
  rw [Nat.succ_mul, Nat.mul_comm s.channels_out] at hm
  refine ⟨⟨Nat.zero_le _, hle, hco⟩, by omega, by omega, fun j hj => ?_⟩
  rw [(fully_connected_spec (2 ^ k) U core_id s).2.2.2.2 j, if_neg (by omega)]

/-- Instance of C18 in the end-to-end scenario: core 1 of two, row 3, last
weight of the row. -/
theorem C18_accesses_in_bounds_witness :
    (1 < 2 ^ 1 ∧ fc_begin (2 ^ 1) 1 (scenario (fun _ => 0)).channels_out ≤ 3
      ∧ 3 < fc_end (2 ^ 1) 1 (scenario (fun _ => 0)).channels_out
      ∧ 7 < (scenario (fun _ => 0)).channels_in)
    ∧ 3 * (scenario (fun _ => 0)).channels_in + 7
        < (scenario (fun _ => 0)).channels_in * (scenario (fun _ => 0)).channels_out :=
  ⟨⟨by decide, by decide, by decide, by decide⟩,
    (C18_accesses_in_bounds 1 0 1 (scenario (fun _ => 0)) 3 7 (by decide) (by decide)
      (by decide) (by decide)).2.2.1⟩

/-- C19: on `NUM_CORES = 2^k`, with `size = calculate_per_core_size(channels_out)`,
an index lies in the range of some core exactly when it is below
`min(NUM_CORES * size, channels_out)`; the indices below `channels_out` that
no core owns are those of `[NUM_CORES * size, channels_out)`; and after all
cores have run the output holds the golden value below `NUM_CORES * size` and
its initial value from there on. -/
theorem C19_union_is_prefix (k U : Nat) (s : fc_args_t) (j : Nat) :
    ((∃ c, c < 2 ^ k ∧ fc_begin (2 ^ k) c s.channels_out ≤ j
        ∧ j < fc_end (2 ^ k) c s.channels_out)
      ↔ j < min (2 ^ k * calculate_per_core_size (2 ^ k) s.channels_out) s.channels_out)
    ∧ ((j < s.channels_out ∧ ¬∃ c, c < 2 ^ k ∧ fc_begin (2 ^ k) c s.channels_out ≤ j
          ∧ j < fc_end (2 ^ k) c s.channels_out)
      ↔ (2 ^ k * calculate_per_core_size (2 ^ k) s.channels_out ≤ j ∧ j < s.channels_out))
    ∧ (pi_cl_team_fork (2 ^ k) (fully_connected (2 ^ k) U) s).output j
      = if j < 2 ^ k * calculate_per_core_size (2 ^ k) s.channels_out then golden s j
        else s.output j := by
  have hle := calculate_per_core_size_mul_le k s.channels_out
  have hiff := fc_range_mem_iff k s.channels_out j
  have hout := team_fork_output_two_pow k U s j
  have hfs : fc_size (2 ^ k) s.channels_out = calculate_per_core_size (2 ^ k) s.channels_out :=
    rfl
  rw [hfs, Nat.mul_comm] at hiff hout
  rw [Nat.mul_comm] at hle
  refine ⟨?_, ?_, hout⟩
  · rw [hiff]; omega
  · rw [hiff]; omega

/-- C20: for a length `L <= 65793` the 32-bit accumulator of both routines
never wraps.  Every exact partial sum of `a[i] * b[i]` over `i < n`, `n <= L`,
lies in `[-2^31, 2^31 - 1]`; the accumulator of the scalar loop after `n`
iterations, of the group loop after `q` groups and of the tail loop after `t`
elements is the exact partial sum over the indices consumed so far; and both
results are the exact integer sum over `[0, L)`. -/
theorem C20_accumulator_never_wraps (a b : Nat → Int) (L n q t : Nat) (hL : L ≤ 65793)
    (hn : n ≤ L) (hq : q ≤ L / 4) (ht : t ≤ L % 4) :
    (-2147483648 ≤ ∑ i in Finset.range n, u8 (a i) * i8 (b i)
      ∧ ∑ i in Finset.range n, u8 (a i) * i8 (b i) ≤ 2147483647)
    ∧ ((List.range L).take n).foldl (fun sum i => wrap32 (sum + u8 (a i) * i8 (b i))) 0
        = ∑ i in Finset.range n, u8 (a i) * i8 (b i)
    ∧ ((List.range (L / 4)).take q).foldl
          (fun sum i => SumDotp4 (loadV4 a i) (loadV4 b i) sum) 0
        = ∑ i in Finset.range (4 * q), u8 (a i) * i8 (b i)
    ∧ ((List.range' (L / 4 * 4) (L / 4 * 4 + L % 4 - L / 4 * 4)).take t).foldl
          (fun sum i => wrap32 (sum + u8 (a i) * i8 (b i)))
          ((List.range (L / 4)).foldl (fun sum i => SumDotp4 (loadV4 a i) (loadV4 b i) sum) 0)
        = ∑ i in Finset.range (L / 4 * 4 + t), u8 (a i) * i8 (b i)
    ∧ dotp_u8_i8_i32 a b L = ∑ i in Finset.range L, u8 (a i) * i8 (b i)
    ∧ dotp_u8_i8_i32_simd a b L = ∑ i in Finset.range L, u8 (a i) * i8 (b i) := by
  have hfit : ∀ m, m ≤ L → wrap32 (∑ i in Finset.range m, u8 (a i) * i8 (b i))
      = ∑ i in Finset.range m, u8 (a i) * i8 (b i) := by
    intro m hm
    obtain ⟨h1, h2⟩ := sum_terms_in_int32 a b m (by omega)
    exact wrap32_of_range _ h1 (by omega)
  have hgroup : ∀ m, m ≤ L / 4 →
      (List.range m).foldl (fun sum i => SumDotp4 (loadV4 a i) (loadV4 b i) sum) 0
        = ∑ i in Finset.range (4 * m), u8 (a i) * i8 (b i) := by
    intro m hm
    rw [← foldl_simd_fixed, foldl_simd_sum, hfit _ (by omega)]
  refine ⟨sum_terms_in_int32 a b n (by omega), ?_, ?_, ?_, ?_, ?_⟩
  · rw [List.take_range, Nat.min_eq_left hn]
    have h := dotp_u8_i8_i32_eq_sum a b n
    unfold dotp_u8_i8_i32 at h
    rw [h, hfit n hn]
  · rw [List.take_range, Nat.min_eq_left hq]
    exact hgroup q hq
  · rw [Nat.add_sub_cancel_left, take_range'_of_le t _ _ ht, hgroup (L / 4) (le_refl _)]
    have hS : wrap32 (∑ i in Finset.range (4 * (L / 4)), u8 (a i) * i8 (b i))
        = ∑ i in Finset.range (4 * (L / 4)), u8 (a i) * i8 (b i) := hfit _ (by omega)
    rw [← foldl_acc_fixed (fun i => u8 (a i) * i8 (b i)) _ _ hS,
      foldl_acc_sum (fun i => u8 (a i) * i8 (b i)), Nat.mul_comm (L / 4) 4,
      ← Finset.sum_range_add, hfit _ (by omega)]
  · rw [dotp_u8_i8_i32_eq_sum, hfit L (le_refl L)]
  · rw [dotp_u8_i8_i32_simd_eq_sum, hfit L (le_refl L)]

/-- Instance of C20 on the length 5 with `a = [255, ..]`, `b = [-128, ..]`:
after one group the accumulator is `4 * 255 * (-128)` and the result is
`5 * 255 * (-128)`. -/
theorem C20_accumulator_never_wraps_witness :
    (5 ≤ 65793 ∧ 3 ≤ 5 ∧ 1 ≤ 5 / 4 ∧ 1 ≤ 5 % 4)
    ∧ ((List.range (5 / 4)).take 1).foldl
          (fun sum i => SumDotp4 (loadV4 (fun _ => 255) i) (loadV4 (fun _ => -128) i) sum) 0
        = ∑ i in Finset.range (4 * 1), u8 ((fun _ => 255) i) * i8 ((fun _ => -128) i)
    ∧ dotp_u8_i8_i32_simd (fun _ => 255) (fun _ => -128) 5
        = ∑ i in Finset.range 5, u8 ((fun _ => 255) i) * i8 ((fun _ => -128) i)
    ∧ dotp_u8_i8_i32_simd (fun _ => 255) (fun _ => -128) 5 = -163200 :=
  ⟨⟨by decide, by decide, by decide, by decide⟩,
    (C20_accumulator_never_wraps (fun _ => 255) (fun _ => -128) 5 3 1 1 (by decide) (by decide)
      (by decide) (by decide)).2.2.1,
    (C20_accumulator_never_wraps (fun _ => 255) (fun _ => -128) 5 3 1 1 (by decide) (by decide)
      (by decide) (by decide)).2.2.2.2.2,
    by decide⟩

end PulpNN
